import Mathlib

/-!
Verification of the keyword-clustering core of the OrbiSEO repository
(`src/ai/flows/cluster-keywords-by-intent.ts`): the Euclidean distance
utility, the centroid initializer, the K-Means partitioning engine and the
orchestration flow that groups keywords by cluster and names the clusters.

Modelling conventions:
* JS numbers are modelled by `ℚ`.  The only irrational operation the code
  performs is the final `Math.sqrt` in `euclideanDistance`; since `Math.sqrt`
  is strictly monotone on the non-negatives with `sqrt 0 = 0`, every use the
  program makes of a distance (the `<` comparisons of the Assign argmin, the
  `> 1e-4` convergence test, and the `=== 0` facts of the spec) is preserved
  if the function returns the *squared* distance instead, with the
  convergence threshold squared accordingly (`(1e-4)^2 = 1/10^8`).  The
  `Infinity` sentinel is `⊤` of `WithTop ℚ`.
* Ambient randomness is passed in explicitly: `Array.sort(() => 0.5 -
  Math.random())` (which returns some permutation of its input) becomes a
  `shuffle` parameter constrained to permute its argument, and
  `Math.floor(Math.random() * embeddings.length)` (a valid random index)
  becomes a `pick` parameter reduced `% embeddings.length`.
* JS objects used as string-keyed records become insertion-ordered
  association lists with unique keys: assigning to an existing key updates
  the value in place, assigning a fresh key appends.
* The external cluster-naming collaborator (`nameClustersTool`) is an
  arbitrary total labelling function `nameFn : String → List String →
  String` from cluster id and member keywords to a label; its per-cluster
  fallback keeps it total, matching the source.
-/

/-- A keyword embedding: an ordered sequence of numbers. -/
abbrev Emb := List ℚ

/-- Embeds `euclideanDistance` (lines 15–22): mismatched lengths return the
`Infinity` sentinel (`⊤`), otherwise the sum of squared coordinate
differences (the squared-distance model of the `Math.sqrt` result, see the
file comment). -/
def euclideanDistance (a b : Emb) : WithTop ℚ :=
  if a.length ≠ b.length then ⊤
  else (((List.zipWith (fun x y => (x - y) ^ 2) a b).sum : ℚ) : WithTop ℚ)

/-- First-occurrence deduplication, the semantics of
`Array.from(new Set(embeddings.map(JSON.stringify))).map(JSON.parse)`
(line 29): a JS `Set` keeps the first occurrence of each element, in input
order. -/
def dedupFirstAux {α : Type} [DecidableEq α] (seen : List α) :
    List α → List α
  | [] => []
  | a :: l =>
    if a ∈ seen then dedupFirstAux seen l
    else a :: dedupFirstAux (a :: seen) l

/-- First-occurrence deduplication, built by walking the list and keeping
each element not already seen. -/
def dedupFirst {α : Type} [DecidableEq α] (l : List α) : List α :=
  dedupFirstAux [] l

/-- Embeds `initializeCentroids` (lines 26–37): deduplicate the embeddings,
shuffle them (the comparator-based shuffle returns some permutation — the
`shuffle` parameter), and take `min(uniqueEmbeddings.length, k)` of them. -/
def initializeCentroids (shuffle : List Emb → List Emb)
    (embeddings : List Emb) (k : ℕ) : List Emb :=
  let uniqueEmbeddings := dedupFirst embeddings
  let tk := min uniqueEmbeddings.length k
  (shuffle uniqueEmbeddings).take tk

theorem mem_dedupFirstAux {α : Type} [DecidableEq α] (l : List α) :
    ∀ (seen : List α) (x : α),
      x ∈ dedupFirstAux seen l ↔ x ∈ l ∧ x ∉ seen := by
  induction l with
  | nil => intro seen x; simp [dedupFirstAux]
  | cons a l ih =>
    intro seen x
    rw [dedupFirstAux]
    by_cases ha : a ∈ seen
    · rw [if_pos ha, ih]
      constructor
      · rintro ⟨h1, h2⟩; exact ⟨List.mem_cons_of_mem a h1, h2⟩
      · rintro ⟨h1, h2⟩
        rcases List.mem_cons.mp h1 with h | h
        · exact absurd (h ▸ ha) h2
        · exact ⟨h, h2⟩
    · rw [if_neg ha]
      simp only [List.mem_cons, ih (a :: seen) x]
      by_cases hx : x = a
      · subst hx; simp [ha]
      · simp [hx]

theorem nodup_dedupFirstAux {α : Type} [DecidableEq α] (l : List α) :
    ∀ seen : List α, (dedupFirstAux seen l).Nodup := by
  induction l with
  | nil => intro seen; simp [dedupFirstAux]
  | cons a l ih =>
    intro seen
    rw [dedupFirstAux]
    by_cases ha : a ∈ seen
    · rw [if_pos ha]; exact ih seen
    · rw [if_neg ha]
      refine List.nodup_cons.mpr ⟨?_, ih (a :: seen)⟩
      intro hmem
      exact ((mem_dedupFirstAux l (a :: seen) a).mp hmem).2
        (List.mem_cons_self a seen)

theorem mem_dedupFirst {α : Type} [DecidableEq α] (l : List α) (x : α) :
    x ∈ dedupFirst l ↔ x ∈ l := by
  unfold dedupFirst
  rw [mem_dedupFirstAux]
  simp

theorem nodup_dedupFirst {α : Type} [DecidableEq α] (l : List α) :
    (dedupFirst l).Nodup :=
  nodup_dedupFirstAux l []

theorem dedupFirst_ne_nil {α : Type} [DecidableEq α] (l : List α)
    (h : l ≠ []) : dedupFirst l ≠ [] := by
  cases l with
  | nil => exact absurd rfl h
  | cons a l => simp [dedupFirst, dedupFirstAux]

/-- Length of the initializer's result, assuming only that the shuffle
permutes its input. -/
theorem initializeCentroids_length (shuffle : List Emb → List Emb)
    (embeddings : List Emb) (k : ℕ)
    (hs : (shuffle (dedupFirst embeddings)).Perm (dedupFirst embeddings)) :
    (initializeCentroids shuffle embeddings k).length
      = min k (dedupFirst embeddings).length := by
  unfold initializeCentroids
  rw [List.length_take, hs.length_eq]
  omega

theorem initializeCentroids_nodup (shuffle : List Emb → List Emb)
    (embeddings : List Emb) (k : ℕ)
    (hs : (shuffle (dedupFirst embeddings)).Perm (dedupFirst embeddings)) :
    (initializeCentroids shuffle embeddings k).Nodup := by
  unfold initializeCentroids
  exact (List.take_sublist _ _).nodup (hs.nodup_iff.mpr (nodup_dedupFirst _))

theorem initializeCentroids_mem (shuffle : List Emb → List Emb)
    (embeddings : List Emb) (k : ℕ)
    (hs : (shuffle (dedupFirst embeddings)).Perm (dedupFirst embeddings))
    (c : Emb) (hc : c ∈ initializeCentroids shuffle embeddings k) :
    c ∈ embeddings := by
  unfold initializeCentroids at hc
  have h1 : c ∈ shuffle (dedupFirst embeddings) :=
    (List.take_sublist _ _).mem hc
  exact (mem_dedupFirst _ _).mp (hs.mem_iff.mp h1)

/-- The inner argmin of the Assign step (lines 64–72): scan the centroids
carrying the current position `j`, the best index and the least distance so
far, starting from `minDistance = Infinity (⊤)` and
`closestCentroidIndex = 0`, replacing on a strict `<`. -/
def argminCentroid (e : Emb) : List Emb → ℕ → ℕ × WithTop ℚ → ℕ × WithTop ℚ
  | [], _, acc => acc
  | c :: cs, j, acc =>
    let d := euclideanDistance e c
    if d < acc.2 then argminCentroid e cs (j + 1) (j, d)
    else argminCentroid e cs (j + 1) acc

/-- The index of the nearest centroid to `e` (ties and the all-`⊤` case fall
back to index 0, as in the source's initial `closestCentroidIndex = 0`). -/
def closestCentroid (centroids : List Emb) (e : Emb) : ℕ :=
  (argminCentroid e centroids 0 (0, ⊤)).1

/-- One Assign step (lines 63–77): every embedding goes to its nearest
centroid. -/
def assignStep (centroids : List Emb) (embeddings : List Emb) : List ℕ :=
  embeddings.map (closestCentroid centroids)

/-- Coordinate-wise vector addition, the `sums[ci][d] += embeddings[i][d]`
accumulation (lines 87–93) under the shared-dimension invariant of the data
model (§3 of the design: all embeddings of one run share one length). -/
def vecAdd (a b : List ℚ) : List ℚ := List.zipWith (· + ·) a b

/-- The embeddings currently assigned to cluster `i` (the `counts`/`sums`
accumulation walks the embeddings in input order, lines 87–93). -/
def clusterMembers (embeddings : List Emb) (assignments : List ℕ) (i : ℕ) :
    List Emb :=
  ((embeddings.zip assignments).filter (fun p => p.2 = i)).map Prod.fst

/-- The `1e-4` centroid-movement threshold of line 99, squared because
`euclideanDistance` is modelled by the squared distance. -/
def convergenceThresholdSq : ℚ := 1 / 100000000

/-- The coordinate-wise mean of a cluster's members, `sums[i].map(s => s /
counts[i])` (line 98), with `dim = embeddings[0].length` (line 85). -/
def clusterMean (dim : ℕ) (members : List Emb) : Emb :=
  (members.foldl vecAdd (List.replicate dim 0)).map
    (fun s => s / (members.length : ℚ))

/-- One Update step (lines 82–112).  For each cluster index `i < k`: if the
cluster has members its new centroid is their mean, and convergence requires
`centroids[i]` to exist (`!centroids[i]`, line 99) and the mean to have
moved at most the threshold; an empty cluster is re-seeded from a random
input embedding (`pick i % length`, line 106) and forces `converged =
false`.  Returns the new centroids and the `converged` flag. -/
def updateStep (pick : ℕ → ℕ) (embeddings : List Emb) (assignments : List ℕ)
    (centroids : List Emb) (k : ℕ) : List Emb × Bool :=
  let dim := (embeddings.headD []).length
  let newCentroids := (List.range k).map (fun i =>
    let members := clusterMembers embeddings assignments i
    if members.isEmpty then
      embeddings.getD (pick i % embeddings.length) []
    else clusterMean dim members)
  let converged := (List.range k).all (fun i =>
    let members := clusterMembers embeddings assignments i
    !members.isEmpty &&
      match centroids.get? i with
      | none => false
      | some c =>
        !((convergenceThresholdSq : WithTop ℚ)
            < euclideanDistance (clusterMean dim members) c))
  (newCentroids, converged)

/-- The Assign → Update loop of `kmeans` (lines 60–113), fuelled by the
iteration budget (`maxIterations`).  Returns the final assignments together
with the number of Assign steps executed.  `iter` numbers the current
iteration so that the re-seed randomness `pick : iter → clusterIndex → ℕ`
can differ between iterations, as fresh `Math.random()` calls do.  The
source's `changed` flag is true iff some position of the freshly computed
assignment differs from the previous one, i.e. iff the two lists (of equal
length) differ. -/
def kmeansLoop (pick : ℕ → ℕ → ℕ) (embeddings : List Emb) (k : ℕ) :
    ℕ → ℕ → List Emb → List ℕ → List ℕ × ℕ
  | 0, _, _, assignments => (assignments, 0)
  | fuel + 1, iter, centroids, assignments =>
    let newAssignments := assignStep centroids embeddings
    if newAssignments = assignments then (newAssignments, 1)
    else
      let upd := updateStep (pick iter) embeddings newAssignments centroids k
      if upd.2 then (newAssignments, 1)
      else
        let rest := kmeansLoop pick embeddings k fuel (iter + 1) upd.1
          newAssignments
        (rest.1, rest.2 + 1)

/-- Embeds `kmeans` (lines 40–116).  Empty input or `k = 0` returns the
empty assignment; `N < k` returns the identity assignment; otherwise the
requested count is reduced to the number of initialized centroids (with an
all-zero fallback if that is zero) and the Assign → Update loop runs with
the iteration budget as fuel, starting from the all-zero assignment. -/
def kmeans (shuffle : List Emb → List Emb) (pick : ℕ → ℕ → ℕ)
    (embeddings : List Emb) (k : ℕ) (maxIterations : ℕ) : List ℕ :=
  if embeddings.length = 0 ∨ k = 0 then []
  else if embeddings.length < k then
    List.range embeddings.length
  else
    let centroids := initializeCentroids shuffle embeddings k
    if centroids.length < k then
      if centroids.length = 0 then List.replicate embeddings.length 0
      else
        (kmeansLoop pick embeddings centroids.length maxIterations 0 centroids
          (List.replicate embeddings.length 0)).1
    else
      (kmeansLoop pick embeddings k maxIterations 0 centroids
        (List.replicate embeddings.length 0)).1

/-- JS object assignment `r[key] = v` on a string-keyed record modelled as
an insertion-ordered association list: an existing key keeps its position
and gets the new value, a fresh key is appended. -/
def recordInsert {α : Type} (r : List (String × α)) (key : String) (v : α) :
    List (String × α) :=
  if r.any (fun p => p.1 = key) then
    r.map (fun p => if p.1 = key then (key, v) else p)
  else r ++ [(key, v)]

/-- `clusterResults[clusterId].push(keywords[i])` with on-demand creation of
the entry (lines 192–195). -/
def pushKeyword (r : List (String × List String)) (key : String)
    (kw : String) : List (String × List String) :=
  if r.any (fun p => p.1 = key) then
    r.map (fun p => if p.1 = key then (p.1, p.2 ++ [kw]) else p)
  else r ++ [(key, [kw])]

/-- The cluster id string `` `cluster${clusterIndex}` `` (line 191). -/
def clusterId (i : ℕ) : String := "cluster" ++ toString i

/-- The grouping loop of the flow (lines 188–196): walk the assignments in
ascending input order, pushing each keyword onto its cluster's list. -/
def groupKeywords (keywords : List String) (assignments : List ℕ) :
    List (String × List String) :=
  (keywords.zip assignments).foldl
    (fun acc p => pushKeyword acc (clusterId p.2) p.1) []

/-- The assignments the flow obtains (line 185): `kmeans` at the requested
count clamped to the number of keywords, with the default iteration budget
of 100. -/
def flowAssignments (shuffle : List Emb → List Emb) (pick : ℕ → ℕ → ℕ)
    (keywords : List String) (embeddings : List Emb) (clusterCount : ℤ) :
    List ℕ :=
  kmeans shuffle pick embeddings
    (min clusterCount (keywords.length : ℤ)).toNat 100

/-- The non-empty id-keyed clusters the flow hands to the naming tool
(lines 188–204): the grouping result with empty member lists filtered
out. -/
def nonEmptyClusters (shuffle : List Emb → List Emb) (pick : ℕ → ℕ → ℕ)
    (keywords : List String) (embeddings : List Emb) (clusterCount : ℤ) :
    List (String × List String) :=
  (groupKeywords keywords
      (flowAssignments shuffle pick keywords embeddings clusterCount)).filter
    (fun p => !p.2.isEmpty)

/-- Embeds `clusterKeywordsByIntentFlow` (lines 164–223).  Empty keywords
or embeddings short-circuit to the empty record; the requested count is
clamped to the number of keywords, and a clamped count `≤ 0` also
short-circuits; otherwise keywords are grouped by their k-means assignment,
empty groups are dropped, and each surviving cluster is renamed by the
naming collaborator `nameFn` (the `nameClustersTool` names every non-empty
cluster, falling back to `Topic: <first keyword>` on failure, so `nameFn`
is total), with a label collision overwriting the earlier cluster's entry
(last write wins). -/
def clusterKeywordsByIntentFlow (shuffle : List Emb → List Emb)
    (pick : ℕ → ℕ → ℕ) (nameFn : String → List String → String)
    (keywords : List String) (embeddings : List Emb) (clusterCount : ℤ) :
    List (String × List String) :=
  if keywords = [] ∨ embeddings = [] then []
  else
    let adjustedClusterCount := min clusterCount (keywords.length : ℤ)
    if adjustedClusterCount ≤ 0 then []
    else
      let clusters :=
        nonEmptyClusters shuffle pick keywords embeddings clusterCount
      if clusters.isEmpty then []
      else
        clusters.foldl (fun acc p => recordInsert acc (nameFn p.1 p.2) p.2) []

theorem euclideanDistance_self (a : Emb) :
    euclideanDistance a a = ((0 : ℚ) : WithTop ℚ) := by
  unfold euclideanDistance
  rw [if_neg (by simp)]
  norm_cast
  rw [List.zipWith_same]
  exact List.sum_eq_zero (by simp)

theorem euclideanDistance_comm (a b : Emb) :
    euclideanDistance a b = euclideanDistance b a := by
  unfold euclideanDistance
  by_cases h : a.length = b.length
  · rw [if_neg (by simp [h]), if_neg (by simp [h])]
    rw [List.zipWith_comm_of_comm _ (fun x y => by ring) a b]
  · rw [if_pos (by simpa using h), if_pos (by simp; omega)]

/-- C7: for every embedding `a`, `euclideanDistance a a = 0`, and for every
pair of embeddings (in particular every equal-length pair) the distance is
symmetric.  In the squared-distance model both facts transfer verbatim to
the `Math.sqrt` value of the source, since `sqrt 0 = 0` and `sqrt` is a
function of the radicand. -/
theorem euclideanDistance_zero_and_symm (a b : Emb) :
    euclideanDistance a a = ((0 : ℚ) : WithTop ℚ)
      ∧ euclideanDistance a b = euclideanDistance b a :=
  ⟨euclideanDistance_self a, euclideanDistance_comm a b⟩

/-- The running minimum of the argmin scan never increases and ends below
every scanned distance. -/
theorem argminCentroid_min_le (e : Emb) (cs : List Emb) :
    ∀ (j : ℕ) (acc : ℕ × WithTop ℚ),
      (argminCentroid e cs j acc).2 ≤ acc.2
        ∧ ∀ c ∈ cs, (argminCentroid e cs j acc).2 ≤ euclideanDistance e c := by
  induction cs with
  | nil => intro j acc; exact ⟨le_refl _, by simp⟩
  | cons c cs ih =>
    intro j acc
    rw [argminCentroid]
    by_cases hd : euclideanDistance e c < acc.2
    · rw [if_pos hd]
      obtain ⟨h1, h2⟩ := ih (j + 1) (j, euclideanDistance e c)
      refine ⟨le_trans h1 (le_of_lt hd), ?_⟩
      intro c' hc'
      rcases List.mem_cons.mp hc' with h | h
      · subst h; exact h1
      · exact h2 c' h
    · rw [if_neg hd]
      obtain ⟨h1, h2⟩ := ih (j + 1) acc
      refine ⟨h1, ?_⟩
      intro c' hc'
      rcases List.mem_cons.mp hc' with h | h
      · subst h; exact le_trans h1 (not_lt.mp hd)
      · exact h2 c' h

/-- The argmin scan either keeps its accumulator or returns the position
and distance of one of the scanned centroids. -/
theorem argminCentroid_shape (e : Emb) (cs : List Emb) :
    ∀ (j : ℕ) (acc : ℕ × WithTop ℚ),
      argminCentroid e cs j acc = acc
        ∨ ∃ i, i < cs.length ∧
            argminCentroid e cs j acc
              = (j + i, euclideanDistance e (cs.getD i [])) := by
  induction cs with
  | nil => intro j acc; exact Or.inl rfl
  | cons c cs ih =>
    intro j acc
    rw [argminCentroid]
    by_cases hd : euclideanDistance e c < acc.2
    · rw [if_pos hd]
      rcases ih (j + 1) (j, euclideanDistance e c) with h | ⟨i, hi, h⟩
      · exact Or.inr ⟨0, by simp, by simpa using h⟩
      · refine Or.inr ⟨i + 1, by simpa using hi, ?_⟩
        rw [h, List.getD_cons_succ]
        congr 1
        omega
    · rw [if_neg hd]
      rcases ih (j + 1) acc with h | ⟨i, hi, h⟩
      · exact Or.inl h
      · refine Or.inr ⟨i + 1, by simpa using hi, ?_⟩
        rw [h, List.getD_cons_succ]
        congr 1
        omega

/-- C8: embeddings of different lengths get the sentinel `⊤` (the source's
`Infinity`), and whenever at least one centroid is at finite distance from
a point, the Assign argmin selects a centroid at finite distance — a
length-mismatched pair is never chosen over any available match. -/
theorem euclideanDistance_mismatch_sentinel (a b e : Emb)
    (centroids : List Emb)
    (hab : a.length ≠ b.length)
    (hfin : ∃ c ∈ centroids, euclideanDistance e c ≠ ⊤) :
    euclideanDistance a b = ⊤
      ∧ euclideanDistance e
          (centroids.getD (closestCentroid centroids e) []) ≠ ⊤ := by
  constructor
  · unfold euclideanDistance
    rw [if_pos hab]
  · obtain ⟨c₀, hc₀, hc₀fin⟩ := hfin
    have hlt : euclideanDistance e c₀ < ⊤ := lt_top_iff_ne_top.mpr hc₀fin
    have hmin := (argminCentroid_min_le e centroids 0 (0, ⊤)).2 c₀ hc₀
    have hne : (argminCentroid e centroids 0 (0, ⊤)).2 ≠ ⊤ :=
      ne_top_of_le_ne_top hc₀fin hmin
    rcases argminCentroid_shape e centroids 0 (0, ⊤) with h | ⟨i, hi, h⟩
    · rw [h] at hne; exact absurd rfl hne
    · unfold closestCentroid
      rw [h] at hne ⊢
      simpa using hne

theorem euclideanDistance_mismatch_sentinel_witness :
    (([1] : Emb).length ≠ ([1, 2] : Emb).length
        ∧ ∃ c ∈ ([[1, 2], [5]] : List Emb), euclideanDistance [0] c ≠ ⊤)
      ∧ euclideanDistance ([1] : Emb) [1, 2] = ⊤
      ∧ euclideanDistance [0]
          (([[1, 2], [5]] : List Emb).getD
            (closestCentroid [[1, 2], [5]] [0]) []) ≠ ⊤ :=
  ⟨⟨by decide, by decide⟩,
    euclideanDistance_mismatch_sentinel [1] [1, 2] [0] [[1, 2], [5]]
      (by decide) (by decide)⟩

/-- C3: `kmeans` returns the empty assignment for an empty input or `k = 0`,
and for a non-empty input with fewer points than requested clusters it
returns the identity assignment `[0, 1, ..., N-1]` (the early `return`
before the iterative loop). -/
theorem kmeans_degenerate_cases (shuffle : List Emb → List Emb)
    (pick : ℕ → ℕ → ℕ) (embeddings : List Emb) (k fuel : ℕ)
    (hne : embeddings ≠ []) (hlt : embeddings.length < k) :
    kmeans shuffle pick [] k fuel = []
      ∧ kmeans shuffle pick embeddings 0 fuel = []
      ∧ kmeans shuffle pick embeddings k fuel
          = List.range embeddings.length := by
  refine ⟨by simp [kmeans], by simp [kmeans], ?_⟩
  have h0 : embeddings.length ≠ 0 := fun hh =>
    hne (List.length_eq_zero.mp hh)
  unfold kmeans
  rw [if_neg (by omega), if_pos hlt]

theorem kmeans_degenerate_cases_witness :
    (([[0]] : List Emb) ≠ [] ∧ ([[0]] : List Emb).length < 2)
      ∧ kmeans (fun l => l) (fun _ _ => 0) [] 2 100 = []
      ∧ kmeans (fun l => l) (fun _ _ => 0) [[0]] 0 100 = []
      ∧ kmeans (fun l => l) (fun _ _ => 0) [[0]] 2 100 = List.range 1 :=
  ⟨⟨by decide, by decide⟩,
    kmeans_degenerate_cases (fun l => l) (fun _ _ => 0) [[0]] 2 100
      (by decide) (by decide)⟩

/-- The number of Assign steps the loop executes never exceeds its fuel. -/
theorem kmeansLoop_iter_le (pick : ℕ → ℕ → ℕ) (embeddings : List Emb)
    (k : ℕ) :
    ∀ (fuel iter : ℕ) (centroids : List Emb) (assignments : List ℕ),
      (kmeansLoop pick embeddings k fuel iter centroids assignments).2
        ≤ fuel := by
  intro fuel
  induction fuel with
  | zero => intro iter cents assigns; simp [kmeansLoop]
  | succ n ih =>
    intro iter cents assigns
    simp only [kmeansLoop]
    split
    · simp
    · split
      · simp
      · simpa using Nat.succ_le_succ (ih (iter + 1) _ _)

/-- C4: the Assign → Update loop of `kmeans`, run with the source's budget
of 100 iterations, executes at most 100 Assign steps; and whenever an
Assign step changes no assignment the loop stops immediately after that
single step, returning the unchanged assignments, for every remaining
budget. -/
theorem kmeansLoop_iteration_bound_and_early_exit (pick : ℕ → ℕ → ℕ)
    (embeddings : List Emb) (k iter : ℕ) (centroids : List Emb)
    (assignments : List ℕ) :
    (kmeansLoop pick embeddings k 100 iter centroids assignments).2 ≤ 100
      ∧ (assignStep centroids embeddings = assignments →
          ∀ fuel,
            kmeansLoop pick embeddings k (fuel + 1) iter centroids assignments
              = (assignments, 1)) := by
  refine ⟨kmeansLoop_iter_le pick embeddings k 100 iter centroids
    assignments, ?_⟩
  intro h fuel
  simp [kmeansLoop, h]

theorem kmeansLoop_iteration_bound_and_early_exit_witness :
    assignStep [[0]] [[0]] = [0]
      ∧ (kmeansLoop (fun _ _ => 0) [[0]] 1 100 0 [[0]] [0]).2 ≤ 100
      ∧ kmeansLoop (fun _ _ => 0) [[0]] 1 100 0 [[0]] [0] = ([0], 1) :=
  ⟨by decide,
    (kmeansLoop_iteration_bound_and_early_exit (fun _ _ => 0) [[0]] 1 0
      [[0]] [0]).1,
    (kmeansLoop_iteration_bound_and_early_exit (fun _ _ => 0) [[0]] 1 0
      [[0]] [0]).2 (by decide) 99⟩

/-- C5: in an Update step, a cluster index `i < k` that received zero
points is not dropped — the new centroid list still has an entry for every
one of the `k` indices, entry `i` is re-seeded with a point of the input
embedding set, and the step reports `converged = false`. -/
theorem updateStep_empty_cluster_reseed (pick : ℕ → ℕ)
    (embeddings : List Emb) (assignments : List ℕ) (centroids : List Emb)
    (k i : ℕ) (hik : i < k)
    (hempty : clusterMembers embeddings assignments i = [])
    (hne : embeddings ≠ []) :
    (updateStep pick embeddings assignments centroids k).1.length = k
      ∧ (updateStep pick embeddings assignments centroids k).1.getD i []
          ∈ embeddings
      ∧ (updateStep pick embeddings assignments centroids k).2 = false := by
  have hpos : 0 < embeddings.length := List.length_pos.mpr hne
  refine ⟨by simp [updateStep], ?_, ?_⟩
  · simp only [updateStep]
    have hget : ((List.range k).map (fun j =>
        let members := clusterMembers embeddings assignments j
        if members.isEmpty then
          embeddings.getD (pick j % embeddings.length) []
        else clusterMean (embeddings.headD []).length members)).get? i
          = some (embeddings.getD (pick i % embeddings.length) []) := by
      rw [List.get?_map, List.get?_range hik]
      simp [hempty]
    rw [List.getD_eq_get?, hget]
    have hmod : pick i % embeddings.length < embeddings.length :=
      Nat.mod_lt _ hpos
    rw [List.getD_eq_get _ _ hmod]
    exact List.get_mem _ _ _
  · simp only [updateStep]
    refine List.all_eq_false.mpr ⟨i, List.mem_range.mpr hik, ?_⟩
    simp [hempty]

theorem updateStep_empty_cluster_reseed_witness :
    ((0 : ℕ) < 1 ∧ clusterMembers [[0]] [5] 0 = [] ∧ ([[0]] : List Emb) ≠ [])
      ∧ (updateStep (fun _ => 0) [[0]] [5] [[1]] 1).1.length = 1
      ∧ (updateStep (fun _ => 0) [[0]] [5] [[1]] 1).1.getD 0 [] ∈
          ([[0]] : List Emb)
      ∧ (updateStep (fun _ => 0) [[0]] [5] [[1]] 1).2 = false :=
  ⟨⟨by decide, by decide, by decide⟩,
    updateStep_empty_cluster_reseed (fun _ => 0) [[0]] [5] [[1]] 1 0
      (by decide) (by decide) (by decide)⟩

/-- C6: for any shuffle that permutes its input (every comparator-based JS
shuffle does), `initializeCentroids` returns exactly
`min k (number of distinct embeddings)` centroids, pairwise distinct and
all drawn from the input embeddings. -/
theorem initializeCentroids_spec (shuffle : List Emb → List Emb)
    (embeddings : List Emb) (k : ℕ)
    (hs : (shuffle (dedupFirst embeddings)).Perm (dedupFirst embeddings)) :
    (initializeCentroids shuffle embeddings k).length
        = min k (dedupFirst embeddings).length
      ∧ (initializeCentroids shuffle embeddings k).Nodup
      ∧ ∀ c ∈ initializeCentroids shuffle embeddings k, c ∈ embeddings :=
  ⟨initializeCentroids_length shuffle embeddings k hs,
    initializeCentroids_nodup shuffle embeddings k hs,
    fun c hc => initializeCentroids_mem shuffle embeddings k hs c hc⟩

theorem initializeCentroids_spec_witness :
    ((fun (l : List Emb) => l) (dedupFirst [[0], [0], [1]])).Perm
        (dedupFirst [[0], [0], [1]])
      ∧ (initializeCentroids (fun l => l) [[0], [0], [1]] 2).length
          = min 2 (dedupFirst ([[0], [0], [1]] : List Emb)).length
      ∧ (initializeCentroids (fun l => l) [[0], [0], [1]] 2).Nodup
      ∧ ∀ c ∈ initializeCentroids (fun l => l) [[0], [0], [1]] 2,
          c ∈ ([[0], [0], [1]] : List Emb) :=
  ⟨List.Perm.refl _,
    initializeCentroids_spec (fun l => l) [[0], [0], [1]] 2
      (List.Perm.refl _)⟩

/-- C9: for a non-empty input and `k ≥ 1`, the initializer supplies at
least one centroid (for any permuting shuffle), so the guard
`centroids.length = 0` of the all-zero fallback in `kmeans` is false under
that precondition. -/
theorem initializeCentroids_pos_of_nonempty (shuffle : List Emb → List Emb)
    (embeddings : List Emb) (k : ℕ) (hne : 0 < embeddings.length)
    (hk : 1 ≤ k)
    (hs : (shuffle (dedupFirst embeddings)).Perm (dedupFirst embeddings)) :
    0 < (initializeCentroids shuffle embeddings k).length := by
  rw [initializeCentroids_length shuffle embeddings k hs]
  have h1 : dedupFirst embeddings ≠ [] :=
    dedupFirst_ne_nil embeddings (fun hh => by simp [hh] at hne)
  have h2 : 0 < (dedupFirst embeddings).length := List.length_pos.mpr h1
  omega

theorem initializeCentroids_pos_of_nonempty_witness :
    ((0 : ℕ) < ([[0]] : List Emb).length ∧ (1 : ℕ) ≤ 1
        ∧ ((fun (l : List Emb) => l) (dedupFirst [[0]])).Perm
            (dedupFirst [[0]]))
      ∧ 0 < (initializeCentroids (fun l => l) [[0]] 1).length :=
  ⟨⟨by decide, by decide, List.Perm.refl _⟩,
    initializeCentroids_pos_of_nonempty (fun l => l) [[0]] 1 (by decide)
      (by decide) (List.Perm.refl _)⟩

/-- C2: a requested cluster count of zero or less makes the orchestration
flow return the empty mapping (the clamped count is `≤ 0` and the flow
short-circuits); the model has no exception path. -/
theorem clusterFlow_nonpositive_count_empty (shuffle : List Emb → List Emb)
    (pick : ℕ → ℕ → ℕ) (nameFn : String → List String → String)
    (keywords : List String) (embeddings : List Emb) (clusterCount : ℤ)
    (hcc : clusterCount ≤ 0) :
    clusterKeywordsByIntentFlow shuffle pick nameFn keywords embeddings
      clusterCount = [] := by
  unfold clusterKeywordsByIntentFlow
  by_cases h1 : keywords = [] ∨ embeddings = []
  · rw [if_pos h1]
  · rw [if_neg h1, if_pos (le_trans (min_le_left _ _) hcc)]

theorem clusterFlow_nonpositive_count_empty_witness :
    ((0 : ℤ) ≤ 0)
      ∧ clusterKeywordsByIntentFlow (fun l => l) (fun _ _ => 0)
          (fun _ _ => "X") ["a"] [[0]] 0 = [] :=
  ⟨by decide,
    clusterFlow_nonpositive_count_empty (fun l => l) (fun _ _ => 0)
      (fun _ _ => "X") ["a"] [[0]] 0 (by decide)⟩

theorem zip_map_fst_sublist {α β : Type} (l1 : List α) (l2 : List β) :
    ((l1.zip l2).map Prod.fst).Sublist l1 := by
  induction l1 generalizing l2 with
  | nil => simp
  | cons a l1 ih =>
    cases l2 with
    | nil => simp
    | cons b l2 => simpa using List.Sublist.cons₂ a (ih l2)

/-- Pushing a keyword keeps every member list a sublist of the keyword
prefix consumed so far, extended by the pushed keyword. -/
theorem pushKeyword_sublist (r : List (String × List String))
    (key kw : String) (pre : List String)
    (hr : ∀ q ∈ r, q.2.Sublist pre) :
    ∀ q ∈ pushKeyword r key kw, q.2.Sublist (pre ++ [kw]) := by
  intro q hq
  unfold pushKeyword at hq
  split at hq
  · obtain ⟨p, hp, hpe⟩ := List.mem_map.mp hq
    by_cases hpk : p.1 = key
    · rw [if_pos hpk] at hpe
      rw [← hpe]
      exact (hr p hp).append (List.Sublist.refl [kw])
    · rw [if_neg hpk] at hpe
      rw [← hpe]
      exact (hr p hp).trans (List.sublist_append_left pre [kw])
  · rcases List.mem_append.mp hq with h | h
    · exact (hr q h).trans (List.sublist_append_left pre [kw])
    · have hqe : q = (key, [kw]) := by simpa using h
      rw [hqe]
      exact List.sublist_append_right pre [kw]

theorem groupFold_sublist (pairs : List (String × ℕ)) :
    ∀ (r : List (String × List String)) (pre : List String),
      (∀ q ∈ r, q.2.Sublist pre) →
      ∀ q ∈ pairs.foldl (fun acc p => pushKeyword acc (clusterId p.2) p.1) r,
        q.2.Sublist (pre ++ pairs.map Prod.fst) := by
  induction pairs with
  | nil => intro r pre hr q hq; simpa using hr q hq
  | cons p rest ih =>
    intro r pre hr q hq
    rw [List.foldl_cons] at hq
    have h1 := pushKeyword_sublist r (clusterId p.2) p.1 pre hr
    have h2 := ih (pushKeyword r (clusterId p.2) p.1) (pre ++ [p.1]) h1 q hq
    simpa [List.append_assoc] using h2

theorem groupKeywords_sublist (keywords : List String)
    (assignments : List ℕ) (q : String × List String)
    (hq : q ∈ groupKeywords keywords assignments) :
    q.2.Sublist keywords := by
  unfold groupKeywords at hq
  have h := groupFold_sublist (keywords.zip assignments) [] [] (by simp) q hq
  rw [List.nil_append] at h
  exact h.trans (zip_map_fst_sublist keywords assignments)

/-- An entry of a record after `r[key] = v` either carries the assigned
value or was an entry before. -/
theorem recordInsert_mem {α : Type} (r : List (String × α)) (key : String)
    (v : α) (q : String × α) (hq : q ∈ recordInsert r key v) :
    q.2 = v ∨ q ∈ r := by
  unfold recordInsert at hq
  split at hq
  · obtain ⟨p, hp, hpe⟩ := List.mem_map.mp hq
    by_cases hpk : p.1 = key
    · rw [if_pos hpk] at hpe
      left; rw [← hpe]
    · rw [if_neg hpk] at hpe
      right; rwa [← hpe]
  · rcases List.mem_append.mp hq with h | h
    · exact Or.inr h
    · left
      have hqe : q = (key, v) := by simpa using h
      rw [hqe]

/-- Every member list of the final renaming fold comes from one of the
folded clusters (or from the accumulator). -/
theorem nameFold_mem (nameFn : String → List String → String)
    (l : List (String × List String)) :
    ∀ (acc : List (String × List String)) (q : String × List String),
      q ∈ l.foldl (fun acc p => recordInsert acc (nameFn p.1 p.2) p.2) acc →
      (∃ p ∈ l, q.2 = p.2) ∨ q ∈ acc := by
  induction l with
  | nil => intro acc q hq; exact Or.inr hq
  | cons p rest ih =>
    intro acc q hq
    rw [List.foldl_cons] at hq
    rcases ih _ q hq with ⟨p', hp', he⟩ | hmem
    · exact Or.inl ⟨p', List.mem_cons_of_mem p hp', he⟩
    · rcases recordInsert_mem acc (nameFn p.1 p.2) p.2 q hmem with h | h
      · exact Or.inl ⟨p, List.mem_cons_self p rest, h⟩
      · exact Or.inr h

theorem pushKeyword_ne_nil (r : List (String × List String))
    (key kw : String) : pushKeyword r key kw ≠ [] := by
  unfold pushKeyword
  split
  · next h =>
    intro habs
    rw [List.map_eq_nil] at habs
    subst habs
    simp at h
  · simp

theorem groupFold_ne_nil (pairs : List (String × ℕ)) :
    ∀ r : List (String × List String), r ≠ [] ∨ pairs ≠ [] →
      pairs.foldl (fun acc p => pushKeyword acc (clusterId p.2) p.1) r
        ≠ [] := by
  induction pairs with
  | nil =>
    intro r h
    rcases h with h | h
    · simpa using h
    · exact absurd rfl h
  | cons p rest ih =>
    intro r _
    rw [List.foldl_cons]
    exact ih _ (Or.inl (pushKeyword_ne_nil r (clusterId p.2) p.1))

theorem pushKeyword_vals_ne_nil (r : List (String × List String))
    (key kw : String) (hr : ∀ q ∈ r, q.2 ≠ []) :
    ∀ q ∈ pushKeyword r key kw, q.2 ≠ [] := by
  intro q hq
  unfold pushKeyword at hq
  split at hq
  · obtain ⟨p, hp, hpe⟩ := List.mem_map.mp hq
    by_cases hpk : p.1 = key
    · rw [if_pos hpk] at hpe
      rw [← hpe]
      simp
    · rw [if_neg hpk] at hpe
      rw [← hpe]
      exact hr p hp
  · rcases List.mem_append.mp hq with h | h
    · exact hr q h
    · have hqe : q = (key, [kw]) := by simpa using h
      rw [hqe]
      simp

theorem groupFold_vals_ne_nil (pairs : List (String × ℕ)) :
    ∀ r : List (String × List String), (∀ q ∈ r, q.2 ≠ []) →
      ∀ q ∈ pairs.foldl (fun acc p => pushKeyword acc (clusterId p.2) p.1) r,
        q.2 ≠ [] := by
  induction pairs with
  | nil => intro r hr; simpa using hr
  | cons p rest ih =>
    intro r hr
    rw [List.foldl_cons]
    exact ih _ (pushKeyword_vals_ne_nil r (clusterId p.2) p.1 hr)

theorem any_key_iff {α : Type} (r : List (String × α)) (key : String) :
    r.any (fun p => p.1 = key) = true ↔ key ∈ r.map Prod.fst := by
  rw [List.any_eq_true]
  constructor
  · rintro ⟨p, hp, hpe⟩
    have hpk : p.1 = key := by simpa using hpe
    exact hpk ▸ List.mem_map_of_mem Prod.fst hp
  · intro h
    obtain ⟨p, hp, hpe⟩ := List.mem_map.mp h
    exact ⟨p, hp, by simpa using hpe⟩

theorem pushKeyword_keys_of_mem (r : List (String × List String))
    (key kw : String) (h : r.any (fun p => p.1 = key) = true) :
    (pushKeyword r key kw).map Prod.fst = r.map Prod.fst := by
  unfold pushKeyword
  rw [if_pos h, List.map_map]
  refine List.map_congr_left ?_
  intro p _
  by_cases hpk : p.1 = key
  · simp [Function.comp, hpk]
  · simp [Function.comp, hpk]

theorem pushKeyword_keys_of_not_mem (r : List (String × List String))
    (key kw : String) (h : ¬ r.any (fun p => p.1 = key) = true) :
    (pushKeyword r key kw).map Prod.fst = r.map Prod.fst ++ [key] := by
  unfold pushKeyword
  rw [if_neg h, List.map_append]
  rfl

theorem pushKeyword_keys_nodup (r : List (String × List String))
    (key kw : String) (h : (r.map Prod.fst).Nodup) :
    ((pushKeyword r key kw).map Prod.fst).Nodup := by
  by_cases ha : r.any (fun p => p.1 = key) = true
  · rw [pushKeyword_keys_of_mem r key kw ha]; exact h
  · rw [pushKeyword_keys_of_not_mem r key kw ha, List.nodup_append]
    refine ⟨h, List.nodup_singleton key, ?_⟩
    intro x hx hx2
    have hxk : x = key := by simpa using hx2
    subst hxk
    exact ha ((any_key_iff r x).mpr hx)

theorem pushKeyword_cons_ne (p : String × List String)
    (r : List (String × List String)) (key kw : String) (h : p.1 ≠ key) :
    pushKeyword (p :: r) key kw = p :: pushKeyword r key kw := by
  unfold pushKeyword
  have hany : (p :: r).any (fun q => q.1 = key)
      = r.any (fun q => q.1 = key) := by
    simp [List.any_cons, h]
  by_cases ha : r.any (fun q => q.1 = key) = true
  · rw [hany, if_pos ha, if_pos ha, List.map_cons, if_neg h]
  · rw [hany, if_neg ha, if_neg ha, List.cons_append]

/-- Pushing a keyword onto a record with pairwise-distinct keys adds
exactly that keyword (at the end of one member list or as a new
singleton), up to permutation of the flattened members. -/
theorem pushKeyword_join_perm (key kw : String) :
    ∀ r : List (String × List String), (r.map Prod.fst).Nodup →
      ((pushKeyword r key kw).map Prod.snd).flatten.Perm
        ((r.map Prod.snd).flatten ++ [kw]) := by
  intro r
  induction r with
  | nil =>
    intro _
    simp [pushKeyword]
  | cons p r ih =>
    intro hnd
    rw [List.map_cons, List.nodup_cons] at hnd
    by_cases hpk : p.1 = key
    · have hany : (p :: r).any (fun q => q.1 = key) = true := by
        simp [List.any_cons, hpk]
      unfold pushKeyword
      rw [if_pos hany, List.map_cons, if_pos hpk]
      have htail : r.map
          (fun q => if q.1 = key then (q.1, q.2 ++ [kw]) else q) = r := by
        have hr : ∀ q ∈ r,
            (if q.1 = key then (q.1, q.2 ++ [kw]) else q) = q := by
          intro q hq
          rw [if_neg]
          intro hqk
          exact hnd.1 (hpk ▸ hqk ▸ List.mem_map_of_mem Prod.fst hq)
        rw [List.map_congr_left hr, List.map_id']
      rw [htail, List.map_cons, List.flatten_cons, List.map_cons,
        List.flatten_cons, List.append_assoc, List.append_assoc]
      exact List.Perm.append_left p.2 List.perm_append_comm
    · rw [pushKeyword_cons_ne p r key kw hpk, List.map_cons,
        List.flatten_cons, List.map_cons, List.flatten_cons,
        List.append_assoc]
      exact List.Perm.append_left p.2 (ih hnd.2)

/-- The grouping fold inserts exactly the keywords of the processed pairs,
up to permutation of the flattened member lists. -/
theorem groupFold_join_perm (pairs : List (String × ℕ)) :
    ∀ r : List (String × List String), (r.map Prod.fst).Nodup →
      ((pairs.foldl (fun acc p => pushKeyword acc (clusterId p.2) p.1)
          r).map Prod.snd).flatten.Perm
        ((r.map Prod.snd).flatten ++ pairs.map Prod.fst) := by
  induction pairs with
  | nil => intro r _; simp
  | cons p rest ih =>
    intro r hnd
    rw [List.foldl_cons]
    have h1 := ih (pushKeyword r (clusterId p.2) p.1)
      (pushKeyword_keys_nodup r (clusterId p.2) p.1 hnd)
    have h2 := pushKeyword_join_perm (clusterId p.2) p.1 r hnd
    refine h1.trans ?_
    refine (List.Perm.append_right (rest.map Prod.fst) h2).trans ?_
    rw [List.append_assoc, List.singleton_append, List.map_cons]

/-- The member lists of the grouping cover the zipped keywords exactly
once: their concatenation is a permutation of the keyword list. -/
theorem groupKeywords_join_perm (keywords : List String)
    (assignments : List ℕ) (hlen : keywords.length = assignments.length) :
    ((groupKeywords keywords assignments).map Prod.snd).flatten.Perm
      keywords := by
  unfold groupKeywords
  have h := groupFold_join_perm (keywords.zip assignments) [] (by simp)
  simp only [List.map_nil, List.flatten_nil, List.nil_append] at h
  rw [List.map_fst_zip keywords assignments (le_of_eq hlen)] at h
  exact h

theorem recordInsert_of_not_mem {α : Type} (r : List (String × α))
    (key : String) (v : α) (h : key ∉ r.map Prod.fst) :
    recordInsert r key v = r ++ [(key, v)] := by
  unfold recordInsert
  rw [if_neg]
  intro hany
  exact h ((any_key_iff r key).mp hany)

/-- When the labels of the folded clusters are pairwise distinct (and
fresh relative to the accumulator), the renaming fold only appends: no
entry is overwritten. -/
theorem nameFold_eq_append (nameFn : String → List String → String)
    (l : List (String × List String)) :
    ∀ acc : List (String × List String),
      (∀ p ∈ l, nameFn p.1 p.2 ∉ acc.map Prod.fst) →
      l.Pairwise (fun p q => nameFn p.1 p.2 ≠ nameFn q.1 q.2) →
      l.foldl (fun acc p => recordInsert acc (nameFn p.1 p.2) p.2) acc
        = acc ++ l.map (fun p => (nameFn p.1 p.2, p.2)) := by
  induction l with
  | nil => intro acc _ _; simp
  | cons p rest ih =>
    intro acc hacc hpw
    rw [List.foldl_cons,
      recordInsert_of_not_mem acc _ _ (hacc p (List.mem_cons_self p rest))]
    rw [List.pairwise_cons] at hpw
    have hacc2 : ∀ q ∈ rest,
        nameFn q.1 q.2 ∉ (acc ++ [(nameFn p.1 p.2, p.2)]).map Prod.fst := by
      intro q hq
      rw [List.map_append, List.mem_append]
      rintro (h | h)
      · exact hacc q (List.mem_cons_of_mem p hq) h
      · have heq : nameFn q.1 q.2 = nameFn p.1 p.2 := by simpa using h
        exact hpw.1 q hq heq.symm
    rw [ih _ hacc2 hpw.2, List.append_assoc, List.map_cons,
      List.singleton_append]

/-- The loop preserves the length of the assignment vector (the Assign
step reassigns every point, one entry per embedding). -/
theorem kmeansLoop_length (pick : ℕ → ℕ → ℕ) (embeddings : List Emb)
    (k : ℕ) :
    ∀ (fuel iter : ℕ) (cents : List Emb) (assigns : List ℕ),
      assigns.length = embeddings.length →
      (kmeansLoop pick embeddings k fuel iter cents assigns).1.length
        = embeddings.length := by
  intro fuel
  induction fuel with
  | zero => intro iter cents assigns h; simpa [kmeansLoop] using h
  | succ n ih =>
    intro iter cents assigns _
    simp only [kmeansLoop]
    split
    · simp [assignStep]
    · split
      · simp [assignStep]
      · exact ih (iter + 1) _ _ (by simp [assignStep])

/-- For a non-empty input and a non-zero requested count, `kmeans` returns
one cluster index per input embedding. -/
theorem kmeans_length (shuffle : List Emb → List Emb) (pick : ℕ → ℕ → ℕ)
    (embeddings : List Emb) (k fuel : ℕ) (h0 : embeddings ≠ [])
    (hk : k ≠ 0) :
    (kmeans shuffle pick embeddings k fuel).length = embeddings.length := by
  have hl : embeddings.length ≠ 0 := fun hh => h0 (List.length_eq_zero.mp hh)
  simp only [kmeans]
  rw [if_neg (by omega)]
  split
  · exact List.length_range _
  · split
    · split
      · exact List.length_replicate _ _
      · exact kmeansLoop_length pick embeddings _ fuel 0 _ _
          (List.length_replicate _ _)
    · exact kmeansLoop_length pick embeddings k fuel 0 _ _
        (List.length_replicate _ _)

/-- C10: every member-keyword list in the flow's output is a sublist (in
particular, in the same relative order) of the input keyword list — the
grouping loop walks the assignments in ascending input order. -/
theorem clusterFlow_members_order_preserved (shuffle : List Emb → List Emb)
    (pick : ℕ → ℕ → ℕ) (nameFn : String → List String → String)
    (keywords : List String) (embeddings : List Emb) (clusterCount : ℤ)
    (q : String × List String)
    (hq : q ∈ clusterKeywordsByIntentFlow shuffle pick nameFn keywords
      embeddings clusterCount) :
    q.2.Sublist keywords := by
  simp only [clusterKeywordsByIntentFlow] at hq
  split at hq
  · simp at hq
  · split at hq
    · simp at hq
    · split at hq
      · simp at hq
      · rcases nameFold_mem nameFn _ _ q hq with ⟨p, hp, he⟩ | hmem
        · unfold nonEmptyClusters at hp
          rw [he]
          exact groupKeywords_sublist keywords _ p (List.mem_filter.mp hp).1
        · simp at hmem

theorem clusterFlow_members_order_preserved_witness :
    ("X", ["a"]) ∈ clusterKeywordsByIntentFlow (fun l => l) (fun _ _ => 0)
        (fun _ _ => "X") ["a"] [[0]] 1
      ∧ (("X", ["a"]) : String × List String).2.Sublist ["a"] :=
  ⟨by decide,
    clusterFlow_members_order_preserved (fun l => l) (fun _ _ => 0)
      (fun _ _ => "X") ["a"] [[0]] 1 ("X", ["a"]) (by decide)⟩

theorem cexDist1 : euclideanDistance [0] [0] = ((0 : ℚ) : WithTop ℚ) := by
  norm_num [euclideanDistance]

theorem cexDist2 : euclideanDistance [0] [100]
    = ((10000 : ℚ) : WithTop ℚ) := by
  norm_num [euclideanDistance]

theorem cexDist3 : euclideanDistance [100] [0]
    = ((10000 : ℚ) : WithTop ℚ) := by
  norm_num [euclideanDistance]

theorem cexDist4 : euclideanDistance [100] [100]
    = ((0 : ℚ) : WithTop ℚ) := by
  norm_num [euclideanDistance]

/-- Concrete run of the Assign step on the two-point input `[[0], [100]]`
with centroids `[[0], [100]]`. -/
theorem cexAssign : assignStep [[0], [100]] [[0], [100]] = [0, 1] := by
  simp only [assignStep, closestCentroid, argminCentroid, List.map_cons,
    List.map_nil, cexDist1, cexDist2, cexDist3, cexDist4,
    eq_true (WithTop.coe_lt_top (0 : ℚ)),
    eq_true (WithTop.coe_lt_top (10000 : ℚ)),
    eq_false (by rw [WithTop.coe_lt_coe]; norm_num :
      ¬ (((10000 : ℚ) : WithTop ℚ) < ((0 : ℚ) : WithTop ℚ))),
    eq_true (by rw [WithTop.coe_lt_coe]; norm_num :
      (((0 : ℚ) : WithTop ℚ) < ((10000 : ℚ) : WithTop ℚ))),
    if_true, if_false]

theorem cexMembers0 : clusterMembers [[0], [100]] [0, 1] 0 = [[0]] := by
  decide

theorem cexMembers1 : clusterMembers [[0], [100]] [0, 1] 1 = [[100]] := by
  decide

theorem cexMean0 : euclideanDistance (clusterMean 1 [[0]]) [0]
    = ((0 : ℚ) : WithTop ℚ) := by
  norm_num [euclideanDistance, clusterMean, vecAdd]

theorem cexMean1 : euclideanDistance (clusterMean 1 [[100]]) [100]
    = ((0 : ℚ) : WithTop ℚ) := by
  norm_num [euclideanDistance, clusterMean, vecAdd]

theorem cexThreshold : ¬ ((convergenceThresholdSq : WithTop ℚ)
    < ((0 : ℚ) : WithTop ℚ)) := by
  rw [WithTop.coe_lt_coe]
  norm_num [convergenceThresholdSq]

/-- The Update step after the Assign step `[0, 1]` reports convergence:
each centroid is already the mean of its singleton cluster. -/
theorem cexConverged :
    (updateStep (fun _ => 0) [[0], [100]] [0, 1] [[0], [100]] 2).2
      = true := by
  simp only [updateStep, (by decide : List.range 2 = [0, 1]),
    List.all_cons, List.all_nil, cexMembers0, cexMembers1,
    (by decide : ([[0], [100]] : List Emb).headD [] = [0]),
    (by decide : ([0] : Emb).length = 1),
    (by decide : ([[0], [100]] : List Emb).get? 0 = some [0]),
    (by decide : ([[0], [100]] : List Emb).get? 1 = some [100]),
    cexMean0, cexMean1, decide_eq_false cexThreshold,
    List.isEmpty_cons, Bool.not_false, Bool.true_and, Bool.and_true,
    Bool.and_self]

theorem cexLoop : (kmeansLoop (fun _ _ => 0) [[0], [100]] 2 100 0
    [[0], [100]] [0, 0]).1 = [0, 1] := by
  rw [show (100 : ℕ) = 99 + 1 from rfl, kmeansLoop]
  simp only [cexAssign]
  rw [if_neg (by decide), if_pos cexConverged]

theorem cexInit : initializeCentroids (fun l => l) [[0], [100]] 2
    = [[0], [100]] := by
  decide

/-- Concrete two-cluster k-means run: the two separated points end up in
two distinct clusters. -/
theorem cexKmeans : kmeans (fun l => l) (fun _ _ => 0) [[0], [100]] 2 100
    = [0, 1] := by
  simp only [kmeans, cexInit]
  rw [if_neg (by decide), if_neg (by decide), if_neg (by decide)]
  simpa using cexLoop

/-- The flow on `["a", "b"]` with constant labelling collapses the two
clusters to one entry: last write wins and `"a"` is lost. -/
theorem cexFlow : clusterKeywordsByIntentFlow (fun l => l) (fun _ _ => 0)
    (fun _ _ => "X") ["a", "b"] [[0], [100]] 2 = [("X", ["b"])] := by
  simp only [clusterKeywordsByIntentFlow, nonEmptyClusters, flowAssignments,
    (by decide :
      (min (2 : ℤ) ((["a", "b"] : List String).length : ℤ)).toNat = 2),
    cexKmeans]
  decide

/-- C1 fails as stated: with an arbitrary labelling function two clusters
may receive the same label, and the last-write-wins record assignment then
drops the earlier cluster's keywords from the output.  Here the input
satisfies the claim's preconditions (equal lengths, `cluster_count ≥ 1`),
the two keywords land in two clusters, both get the label `"X"`, and the
union of the output member lists is `["b"]`, not the input keyword set. -/
theorem clusterFlow_roundtrip_cex :
    (["a", "b"] : List String).length = ([[0], [100]] : List Emb).length
      ∧ (1 : ℤ) ≤ 2
      ∧ ¬ (((clusterKeywordsByIntentFlow (fun l => l) (fun _ _ => 0)
          (fun _ _ => "X") ["a", "b"] [[0], [100]] 2).map
            Prod.snd).flatten.Perm ["a", "b"]) := by
  refine ⟨by decide, by decide, ?_⟩
  rw [cexFlow]
  decide

/-- C1 (amended): when the labelling assigns pairwise-distinct labels to
the non-empty clusters (no label collision), the union of all member lists
of the output is exactly the input keyword multiset — no duplicates, no
omissions.  The labelling collaborator is an arbitrary function; the
shuffle/pick randomness is arbitrary as well. -/
theorem clusterFlow_roundtrip_of_distinct_labels
    (shuffle : List Emb → List Emb) (pick : ℕ → ℕ → ℕ)
    (nameFn : String → List String → String) (keywords : List String)
    (embeddings : List Emb) (clusterCount : ℤ)
    (hlen : keywords.length = embeddings.length) (hcc : 1 ≤ clusterCount)
    (hlbl : (nonEmptyClusters shuffle pick keywords embeddings
        clusterCount).Pairwise
      (fun p q => nameFn p.1 p.2 ≠ nameFn q.1 q.2)) :
    ((clusterKeywordsByIntentFlow shuffle pick nameFn keywords embeddings
        clusterCount).map Prod.snd).flatten.Perm keywords := by
  by_cases hk : keywords = []
  · have he : embeddings = [] := by
      rw [hk] at hlen
      exact List.length_eq_zero.mp hlen.symm
    subst hk
    subst he
    simp [clusterKeywordsByIntentFlow]
  · have he : embeddings ≠ [] := by
      intro hh
      rw [hh] at hlen
      exact hk (List.length_eq_zero.mp (by simpa using hlen))
    have hklen : 0 < keywords.length := List.length_pos.mpr hk
    have hkne : (min clusterCount (keywords.length : ℤ)).toNat ≠ 0 := by
      omega
    have halen : (flowAssignments shuffle pick keywords embeddings
        clusterCount).length = keywords.length := by
      unfold flowAssignments
      rw [kmeans_length shuffle pick embeddings _ 100 he hkne]
      exact hlen.symm
    have hvals : ∀ q ∈ groupKeywords keywords
        (flowAssignments shuffle pick keywords embeddings clusterCount),
        q.2 ≠ [] := by
      unfold groupKeywords
      exact groupFold_vals_ne_nil _ [] (by simp)
    have hfe : nonEmptyClusters shuffle pick keywords embeddings clusterCount
        = groupKeywords keywords
            (flowAssignments shuffle pick keywords embeddings clusterCount) := by
      unfold nonEmptyClusters
      apply List.filter_eq_self.mpr
      intro a ha
      simpa using hvals a ha
    have hgne : groupKeywords keywords
        (flowAssignments shuffle pick keywords embeddings clusterCount)
        ≠ [] := by
      unfold groupKeywords
      refine groupFold_ne_nil _ [] (Or.inr ?_)
      intro hz
      have hzl := congrArg List.length hz
      rw [List.length_zip, halen, min_self] at hzl
      simp at hzl
      exact hk hzl
    have hie : (nonEmptyClusters shuffle pick keywords embeddings
        clusterCount).isEmpty = false := by
      rw [hfe]
      exact List.isEmpty_eq_false.mpr hgne
    simp only [clusterKeywordsByIntentFlow]
    rw [if_neg (not_or.mpr ⟨hk, he⟩), if_neg (by omega),
      if_neg (by simp [hie])]
    rw [nameFold_eq_append nameFn _ [] (by simp) hlbl, List.nil_append,
      List.map_map]
    have hsnd : (nonEmptyClusters shuffle pick keywords embeddings
        clusterCount).map (Prod.snd ∘ fun p => (nameFn p.1 p.2, p.2))
        = (nonEmptyClusters shuffle pick keywords embeddings
            clusterCount).map Prod.snd :=
      List.map_congr_left (fun p _ => rfl)
    rw [hsnd, hfe]
    exact groupKeywords_join_perm keywords _ halen.symm

theorem clusterFlow_roundtrip_of_distinct_labels_witness :
    ((["a"] : List String).length = ([[0]] : List Emb).length
        ∧ (1 : ℤ) ≤ 1
        ∧ (nonEmptyClusters (fun l => l) (fun _ _ => 0) ["a"] [[0]]
            1).Pairwise
          (fun p q => (fun (i : String) (_ : List String) => i) p.1 p.2
            ≠ (fun (i : String) (_ : List String) => i) q.1 q.2))
      ∧ ((clusterKeywordsByIntentFlow (fun l => l) (fun _ _ => 0)
          (fun (i : String) (_ : List String) => i) ["a"] [[0]] 1).map
            Prod.snd).flatten.Perm ["a"] :=
  ⟨⟨by decide, by decide, by decide⟩,
    clusterFlow_roundtrip_of_distinct_labels (fun l => l) (fun _ _ => 0)
      (fun (i : String) (_ : List String) => i) ["a"] [[0]] 1 (by decide)
      (by decide) (by decide)⟩
